import Mathlib

/-!
Shallow embedding of the species-assignment core of
`src/core/phylogenictree.hpp` (class `phylogeny::PhylogenicTree<GENOME>`).

Modelling conventions:
* C++ `uint` counters, node ids and genome ids become `Nat` (no claim under
  consideration involves 32-bit wraparound); the spatial coordinate `int x`
  becomes `Int`.
* `double`/`float` compatibility scores and configuration thresholds become
  `ℚ`.  The narrowing `double` → `float` on `compatibilities.push_back` is
  value-preserving in the model.
* `std::map<ordered_pair<uint>, float> distances` becomes a strictly sorted
  association list over normalised `Nat × Nat` keys (`dinsert` keeps the
  sort order, mirroring the ordered iteration of `std::map`); a read of an
  absent key yields `0`, matching the value `operator[]` default-constructs.
* `std::map<uint, NodeID> _idToSpecies` becomes a sorted association list.
* The `_nodes` registry is left implicit: in every state reachable by the
  public operations each created node is attached to the hierarchy and its
  id equals its registry position, so `_nodes[sid]` is modelled as a search
  for id `sid` in the hierarchy rooted at `_root`.
* `Callbacks` invocations are modelled as an output list of `Event`s.
* `assert` failures and `std::out_of_range` thrown by `.at` are modelled as
  `Except.error ()`; the genome type's required capabilities (`distance`,
  `const_cdata`) are supplied as an explicit `GenomeOps` record.
* Fields the constructor leaves uninitialised (the root's `lastAppearance`,
  `xmin`, `xmax`) are modelled as `0`.
-/

namespace Phylo

/-- Configuration parameters of `config::PTree` (`ptreeconfig.h`) that the
core reads: thresholds, envelope capacity and the two behaviour flags. -/
structure PTreeConfig where
  compatibilityThreshold : ℚ
  similarityThreshold : ℚ
  outperformanceThreshold : ℚ
  enveloppeSize : Nat
  ignoreHybrids : Bool
  simpleNewSpecies : Bool
deriving DecidableEq

/-- The part of the external genome type the tree reads: a stable id and the
two optional parent ids (`hasParent`/`parent` for `MOTHER` and `FATHER`). -/
structure Genome where
  gid : Nat
  mother : Option Nat
  father : Option Nat
deriving DecidableEq

instance : Inhabited Genome := ⟨⟨0, none, none⟩⟩

/-- External capabilities of the genome type: the pairwise `distance`
function and the per-genome distance-to-compatibility response
`g.const_cdata()(d)`. -/
structure GenomeOps where
  dist : Genome → Genome → ℚ
  response : Genome → ℚ → ℚ

/-- Combined compatibility score of `g` against an envelope member `e`:
`min(g.const_cdata()(d), e.const_cdata()(d))` with `d = distance(g, e)`
(`matchesSpecies`, lines 255-256). -/
def gscore (ops : GenomeOps) (g e : Genome) : ℚ :=
  min (ops.response g (ops.dist g e)) (ops.response e (ops.dist g e))

/-- Per-node metadata block `Node::Data`. -/
structure NData where
  firstAppearance : Nat
  lastAppearance : Nat
  count : Nat
  xmin : Int
  xmax : Int
deriving DecidableEq

/-- Lifecycle notifications pushed to the `Callbacks` observer. -/
inductive Event where
  | newSpecies (sid : Nat)
  | enters (sid : Nat) (gid : Nat)
  | leaves (sid : Nat) (gid : Nat)
deriving DecidableEq

/-- The `ordered_pair` constructor: stores `(min, max)` of the two slots. -/
def opair (a b : Nat) : Nat × Nat := (min a b, max a b)

/-- Lexicographic strict order on slot pairs, i.e. `ordered_pair::operator<`. -/
def pairLt (p q : Nat × Nat) : Bool :=
  decide (p.1 < q.1) || (decide (p.1 = q.1) && decide (p.2 < q.2))

/-- Insert-or-overwrite into the sorted association list modelling
`std::map<ordered_pair<uint>, float>`. -/
def dinsert (key : Nat × Nat) (v : ℚ) :
    List ((Nat × Nat) × ℚ) → List ((Nat × Nat) × ℚ)
  | [] => [(key, v)]
  | (k, w) :: t =>
    if pairLt key k then (key, v) :: (k, w) :: t
    else if key = k then (key, v) :: t
    else (k, w) :: dinsert key v t

/-- Read a slot-pair key from the distance table; an absent key reads as the
value-initialised `0.0f` produced by `std::map::operator[]`. -/
def dget (l : List ((Nat × Nat) × ℚ)) (key : Nat × Nat) : ℚ :=
  match l.find? (fun e => e.1 = key) with
  | some e => e.2
  | none => 0

/-- Lookup in the sorted association list modelling `std::map<uint, NodeID>`
(`_idToSpecies`); `none` models both a `find` miss and what `.at` throws on. -/
def alookup : List (Nat × Nat) → Nat → Option Nat
  | [], _ => none
  | (k, v) :: t, x => if x = k then some v else alookup t x

/-- Insert-or-overwrite for `_idToSpecies[gid] = sid`. -/
def ainsert (key : Nat) (v : Nat) : List (Nat × Nat) → List (Nat × Nat)
  | [] => [(key, v)]
  | (k, w) :: t =>
    if key < k then (key, v) :: (k, w) :: t
    else if key = k then (key, v) :: t
    else (k, w) :: ainsert key v t

mutual
/-- A species node (`PhylogenicTree::Node`): id, metadata, the bounded
representative set (`enveloppe`, in admission/replacement order), the sparse
pairwise distance table and the owned children (in creation order).  The
parent back-pointer is implicit in the hierarchy. -/
inductive PNode where
  | mk (id : Nat) (data : NData) (enveloppe : List Genome)
       (distances : List ((Nat × Nat) × ℚ)) (children : PForest)
deriving DecidableEq

/-- The `std::vector<Node_ptr>` of children, as an explicit list type so
that mutual structural recursion over the hierarchy is available. -/
inductive PForest where
  | nil
  | cons (head : PNode) (tail : PForest)
deriving DecidableEq
end

def PNode.id : PNode → Nat
  | .mk i _ _ _ _ => i

def PNode.data : PNode → NData
  | .mk _ d _ _ _ => d

def PNode.enveloppe : PNode → List Genome
  | .mk _ _ e _ _ => e

def PNode.distances : PNode → List ((Nat × Nat) × ℚ)
  | .mk _ _ _ ds _ => ds

def PNode.children : PNode → PForest
  | .mk _ _ _ _ cs => cs

def PForest.toList : PForest → List PNode
  | .nil => []
  | .cons c t => c :: PForest.toList t

def PForest.ids : PForest → List Nat
  | .nil => []
  | .cons c t => c.id :: PForest.ids t

/-- Flat, per-node view of a hierarchy: everything a node owns except the
child subtrees themselves, which are referenced by id. -/
structure NodeView where
  nid : Nat
  ndata : NData
  nenv : List Genome
  ndists : List ((Nat × Nat) × ℚ)
  childIds : List Nat
deriving DecidableEq

mutual
/-- Preorder list of per-node views of a hierarchy. -/
def flatten : PNode → List NodeView
  | .mk i d e ds cs => ⟨i, d, e, ds, cs.ids⟩ :: flattenF cs

def flattenF : PForest → List NodeView
  | .nil => []
  | .cons c t => flatten c ++ flattenF t
end

/-- Simultaneous induction over a node and a forest. -/
theorem PNode.indMut (motive : PNode → Prop) (motiveF : PForest → Prop)
    (h : ∀ i d e ds cs, motiveF cs → motive (.mk i d e ds cs))
    (hnil : motiveF .nil)
    (hcons : ∀ c t, motive c → motiveF t → motiveF (.cons c t)) :
    (∀ n, motive n) ∧ (∀ f, motiveF f) :=
  ⟨fun n => PNode.rec (motive_1 := motive) (motive_2 := motiveF) h hnil hcons n,
   fun f => PForest.rec (motive_1 := motive) (motive_2 := motiveF) h hnil hcons f⟩

/-- List-style induction over a forest alone. -/
theorem PForest.indList (motive : PForest → Prop)
    (hnil : motive .nil)
    (hcons : ∀ c t, motive t → motive (.cons c t)) :
    ∀ f, motive f :=
  fun f => PForest.rec (motive_1 := fun _ => True) (motive_2 := motive)
    (fun _ _ _ _ _ _ => trivial) hnil (fun c t _ ht => hcons c t ht) f

/-- The membership test `matchesSpecies` (lines 249-263).  It pushes the
per-representative scores onto the caller-supplied vector `acc` (which the
caller does NOT clear between calls) and matches iff the yes votes reach
`similarityThreshold * enveloppe.size()`. -/
def matchesSpecies (cfg : PTreeConfig) (ops : GenomeOps) (g : Genome)
    (species : PNode) (acc : List ℚ) : Bool × List ℚ :=
  let scores := species.enveloppe.map (gscore ops g)
  let matable := (scores.filter (fun c => decide (cfg.compatibilityThreshold ≤ c))).length
  (decide (cfg.similarityThreshold * (species.enveloppe.length : ℚ) ≤ (matable : ℚ)),
   acc ++ scores)

/-- One step of the scan for the most compatible envelope point
(lines 289-297): a strictly better score takes over the candidate seat. -/
def bestStep (compatibilities : List ℚ) (acc : Nat × ℚ) (i : Nat) : Nat × ℚ :=
  let c := compatibilities.getD i 0
  if acc.2 < c then (i, c) else acc

/-- Index of the envelope point most compatible with the incoming genome:
seat 0 holds `compatibilities[0]` and indices `1..k-1` are scanned in order,
so ties keep the lowest index. -/
def mostCompatible (compatibilities : List ℚ) (k : Nat) : Nat :=
  ((List.range' 1 (k - 1)).foldl (bestStep compatibilities) (0, compatibilities.getD 0 0)).1

/-- Number of envelope points `i ≠ m` for which the incoming genome is
strictly less compatible than the cached score `dist[{i,m}]`
(lines 305-315). -/
def countVotes (compatibilities : List ℚ) (dists : List ((Nat × Nat) × ℚ))
    (m k : Nat) : Nat :=
  ((List.range k).filter (fun i =>
    decide (i ≠ m) && decide (compatibilities.getD i 0 < dget dists (opair i m)))).length

/-- Metadata update applied on every insertion (lines 341-344). -/
def bump (d : NData) (step : Nat) (x : Int) : NData :=
  { d with count := d.count + 1, lastAppearance := step,
           xmin := min d.xmin x, xmax := max d.xmax x }

/-- The envelope maintenance routine `insertInto` (lines 265-345), returning
the updated node and the emitted notifications.  Note `k - 1` is `Nat`
subtraction; the C++ `uint` expression only differs when `k = 0`, a state
the spec excludes by rejecting zero capacity. -/
def insertInto (cfg : PTreeConfig) (step : Nat) (x : Int) (g : Genome)
    (species : PNode) (compatibilities : List ℚ) : PNode × List Event :=
  match species with
  | .mk nid d env dists cs =>
    let k := env.length
    if k < cfg.enveloppeSize then
      (.mk nid (bump d step x) (env ++ [g])
        ((List.range k).foldl
          (fun ds i => dinsert (opair i k) (compatibilities.getD i 0) ds) dists)
        cs,
       [.enters nid g.gid])
    else
      let m := mostCompatible compatibilities k
      let votes := countVotes compatibilities dists m k
      if (votes : ℚ) < cfg.outperformanceThreshold * ((k - 1 : Nat) : ℚ) then
        (.mk nid (bump d step x) env dists cs, [])
      else
        (.mk nid (bump d step x) (env.set m g)
          ((List.range k).foldl
            (fun ds i => if i = m then ds
                         else dinsert (opair i m) (compatibilities.getD i 0) ds) dists)
          cs,
         [.leaves nid (env.getD m default).gid, .enters nid g.gid])

/-- The child scan of `addGenome` (lines 221-227): each child is tested once
in order, scores accumulating onto the same vector; the first match receives
the genome.  Returns the updated forest, the winner (id and events) if any,
and the accumulated score vector. -/
def visitChildren (cfg : PTreeConfig) (ops : GenomeOps) (step : Nat) (x : Int)
    (g : Genome) : PForest → List ℚ → PForest × Option (Nat × List Event) × List ℚ
  | .nil, acc => (.nil, none, acc)
  | .cons c rest, acc =>
    let r := matchesSpecies cfg ops g c acc
    if r.1 then
      let ins := insertInto cfg step x g c r.2
      (.cons ins.1 rest, some (c.id, ins.2), r.2)
    else
      let vres := visitChildren cfg ops step x g rest r.2
      (.cons c vres.1, vres.2.1, vres.2.2)

/-- Forest concatenation used when a new child species is appended. -/
def PForest.append : PForest → PForest → PForest
  | .nil, f => f
  | .cons c t, f => .cons c (PForest.append t f)

/-- The recursive admission worker `addGenome(x, g, species)`
(lines 205-247) acting on the subtree rooted at the starting node: test the
node, then its children, else create a singleton child (`makeNode` with
`firstAppearance = _step`, `xmin = xmax = x`).  Returns the updated subtree,
the winning species id, the next fresh node id and the notifications;
errors when species creation is needed but `simpleNewSpecies` is off
(the `assert(false)` branch). -/
def addGenomeAt (cfg : PTreeConfig) (ops : GenomeOps) (step : Nat)
    (nextID : Nat) (x : Int) (g : Genome) (species : PNode) :
    Except Unit (PNode × Nat × Nat × List Event) :=
  match species with
  | .mk i d env dists cs =>
    let r := matchesSpecies cfg ops g (.mk i d env dists cs) []
    if r.1 then
      let ins := insertInto cfg step x g (.mk i d env dists cs) r.2
      .ok (ins.1, i, nextID, ins.2)
    else
      match visitChildren cfg ops step x g cs r.2 with
      | (cs', some (w, ev), _) => .ok (.mk i d env dists cs', w, nextID, ev)
      | (_, none, accF) =>
        if cfg.simpleNewSpecies then
          let sub : PNode := .mk nextID ⟨step, 0, 0, x, x⟩ [] [] .nil
          let ins := insertInto cfg step x g sub accF
          .ok (.mk i d env dists (cs.append (.cons ins.1 .nil)), nextID, nextID + 1,
               ins.2 ++ [.newSpecies nextID])
        else .error ()

mutual
/-- Locate the node with id `sid` in the hierarchy and run the admission
worker there, rebuilding the tree around the updated subtree.  This models
`addGenome(x, g, _nodes[sid])`: in every reachable state the registry entry
`_nodes[sid]` is exactly the hierarchy node with id `sid`. -/
def addAtNode (cfg : PTreeConfig) (ops : GenomeOps) (step : Nat)
    (nextID : Nat) (x : Int) (g : Genome) (sid : Nat) :
    PNode → Option (Except Unit (PNode × Nat × Nat × List Event))
  | .mk i d env dists cs =>
    if i = sid then some (addGenomeAt cfg ops step nextID x g (.mk i d env dists cs))
    else
      match addAtForest cfg ops step nextID x g sid cs with
      | none => none
      | some (.error u) => some (.error u)
      | some (.ok (cs', w, nid', ev)) => some (.ok (.mk i d env dists cs', w, nid', ev))

def addAtForest (cfg : PTreeConfig) (ops : GenomeOps) (step : Nat)
    (nextID : Nat) (x : Int) (g : Genome) (sid : Nat) :
    PForest → Option (Except Unit (PForest × Nat × Nat × List Event))
  | .nil => none
  | .cons c rest =>
    match addAtNode cfg ops step nextID x g sid c with
    | some (.error u) => some (.error u)
    | some (.ok (c', w, nid', ev)) => some (.ok (.cons c' rest, w, nid', ev))
    | none =>
      match addAtForest cfg ops step nextID x g sid rest with
      | none => none
      | some (.error u) => some (.error u)
      | some (.ok (rest', w, nid', ev)) => some (.ok (.cons c rest', w, nid', ev))
end

/-- The whole tree: fresh-id counter, genome-id index, root hierarchy,
hybrid count and current step (`_nextNodeID`, `_idToSpecies`, `_root`,
`_hybrids`, `_step`). -/
structure PTree where
  nextNodeID : Nat
  idToSpecies : List (Nat × Nat)
  root : PNode
  hybrids : Nat
  step : Nat
deriving DecidableEq

/-- The tree right after construction: only the root (id 0) exists, with an
empty envelope; `firstAppearance = 0`, `count = 0` are set by `makeNode`,
the remaining metadata fields are modelled as `0`. -/
def freshTree : PTree :=
  ⟨1, [], .mk 0 ⟨0, 0, 0, 0, 0⟩ [] [] .nil, 0, 0⟩

/-- Run the admission worker starting at the node with id `sid` and commit
the result: the winner is recorded in `_idToSpecies[g.id()]`. -/
def startAt (cfg : PTreeConfig) (ops : GenomeOps) (t : PTree) (x : Int)
    (g : Genome) (sid : Nat) : Except Unit (PTree × Nat × List Event) :=
  match addAtNode cfg ops t.step t.nextNodeID x g sid t.root with
  | none => .error ()
  | some (.error u) => .error u
  | some (.ok (root', w, nid', ev)) =>
    .ok (⟨nid', ainsert g.gid w t.idToSpecies, root', t.hybrids, t.step⟩, w, ev)

/-- The public admission entry point `addGenome(x, g)` (lines 56-82): no
usable parentage starts at the root; with both parents present their species
are looked up with `.at` (throwing, hence `error`, when absent); a hybrid
bumps `_hybrids` and is folded into the mother's species when
`ignoreHybrids` is set, and hits `assert(false)` otherwise. -/
def addGenome (cfg : PTreeConfig) (ops : GenomeOps) (t : PTree) (x : Int)
    (g : Genome) : Except Unit (PTree × Nat × List Event) :=
  match g.father, g.mother with
  | some fid, some mid =>
    match alookup t.idToSpecies mid, alookup t.idToSpecies fid with
    | some mS, some pS =>
      if mS = pS then startAt cfg ops t x g mS
      else if cfg.ignoreHybrids then
        startAt cfg ops ⟨t.nextNodeID, t.idToSpecies, t.root, t.hybrids + 1, t.step⟩ x g mS
      else .error ()
    | _, _ => .error ()
  | _, _ => startAt cfg ops t x g t.root.id

mutual
/-- Set `lastAppearance := step` on every hierarchy node whose id is listed
(the second loop of `step`, line 50-51, and the body of `delGenome`). -/
def touchNodes (sids : List Nat) (step : Nat) : PNode → PNode
  | .mk i d e ds cs =>
    .mk i (if i ∈ sids then { d with lastAppearance := step } else d) e ds
      (touchForest sids step cs)

/-- Forest part of `touchNodes`. -/
def touchForest (sids : List Nat) (step : Nat) : PForest → PForest
  | .nil => .nil
  | .cons c t => .cons (touchNodes sids step c) (touchForest sids step t)
end

/-- Resolve every alive genome id through `_idToSpecies.at` (first loop of
`step`, lines 46-48); any miss throws before any mutation. -/
def lookupAll : List Nat → List (Nat × Nat) → Option (List Nat)
  | [], _ => some []
  | p :: rest, idx =>
    match alookup idx p, lookupAll rest idx with
    | some s, some r => some (s :: r)
    | _, _ => none

/-- The `step(step, alivePlants)` operation (lines 45-54): set
`lastAppearance` of every species with an alive member, then advance
`_step`.  The `std::set` deduplication is immaterial because touching a
node twice with the same step is idempotent. -/
def stepTree (t : PTree) (step : Nat) (alive : List Nat) : Except Unit PTree :=
  match lookupAll alive t.idToSpecies with
  | none => .error ()
  | some sids =>
    .ok ⟨t.nextNodeID, t.idToSpecies, touchNodes sids step t.root, t.hybrids, step⟩

/-- The `delGenome(step, id)` operation (lines 84-93): a present id updates
its species' `lastAppearance`; the index entry is retained (the erase is
commented out in the source); an absent id changes nothing. -/
def delGenome (t : PTree) (step : Nat) (gid : Nat) : PTree :=
  match alookup t.idToSpecies gid with
  | some sid => ⟨t.nextNodeID, t.idToSpecies, touchNodes [sid] step t.root, t.hybrids, t.step⟩
  | none => t

/-- The `speciesID(id)` query (lines 95-100); `none` models the `NoID`
sentinel returned on a miss. -/
def speciesID (t : PTree) (gid : Nat) : Option Nat :=
  alookup t.idToSpecies gid

/-- The three external events that drive the tree. -/
inductive EventIn where
  | birth (x : Int) (g : Genome)
  | death (step : Nat) (gid : Nat)
  | stepAdv (step : Nat) (alive : List Nat)

/-- Apply one event; a thrown exception or failed assertion aborts the event
and leaves the tree as it was. -/
def applyEvent (cfg : PTreeConfig) (ops : GenomeOps) (t : PTree) :
    EventIn → PTree
  | .birth x g =>
    match addGenome cfg ops t x g with
    | .ok r => r.1
    | .error _ => t
  | .death s gid => delGenome t s gid
  | .stepAdv s alive =>
    match stepTree t s alive with
    | .ok t' => t'
    | .error _ => t

/-- Apply a sequence of events in order. -/
def applyEvents (cfg : PTreeConfig) (ops : GenomeOps) (evs : List EventIn)
    (t : PTree) : PTree :=
  evs.foldl (applyEvent cfg ops) t

mutual
/-- Serialised form of a node (`to_json`, lines 376-384): id, metadata,
representative list, the distance table as explicit `(slotA, slotB, score)`
triples in map iteration order, and the serialised children. -/
inductive NodeDoc where
  | mk (id : Nat) (data : NData) (env : List Genome)
       (dists : List (Nat × Nat × ℚ)) (children : DocForest)
deriving DecidableEq

inductive DocForest where
  | nil
  | cons (head : NodeDoc) (tail : DocForest)
deriving DecidableEq
end

/-- Serialised form of a tree (`to_json`, lines 372-374): the step counter
and the recursively encoded root. -/
structure TreeDoc where
  step : Nat
  root : NodeDoc
deriving DecidableEq

mutual
def serializeNode : PNode → NodeDoc
  | .mk i d e ds cs =>
    .mk i d e (ds.map (fun p => (p.1.1, p.1.2, p.2))) (serializeForest cs)

def serializeForest : PForest → DocForest
  | .nil => .nil
  | .cons c t => .cons (serializeNode c) (serializeForest t)
end

mutual
/-- The node part of `rebuildHierarchy` (lines 351-369): id, metadata and
representatives are restored verbatim; each distance triple is reinserted
through the `ordered_pair` constructor; children are rebuilt in order. -/
def rebuildNode : NodeDoc → PNode
  | .mk i d e ds cs =>
    .mk i d e (ds.foldl (fun acc p => dinsert (opair p.1 p.2.1) p.2.2 acc) [])
      (rebuildForest cs)

def rebuildForest : DocForest → PForest
  | .nil => .nil
  | .cons c t => .cons (rebuildNode c) (rebuildForest t)
end

mutual
def countDoc : NodeDoc → Nat
  | .mk _ _ _ _ cs => 1 + countDocF cs

def countDocF : DocForest → Nat
  | .nil => 0
  | .cons c t => countDoc c + countDocF t
end

/-- Serialisation of a whole tree. -/
def to_json (t : PTree) : TreeDoc :=
  ⟨t.step, serializeNode t.root⟩

/-- Deserialisation (`from_json`, lines 386-390) into a freshly constructed
tree, as the standalone viewer does: `_step` and `_root` are assigned;
`_idToSpecies` is never touched and stays empty; `rebuildHierarchy` calls
`makeNode` once per document node, advancing `_nextNodeID` past the root the
constructor made. -/
def from_json (d : TreeDoc) : PTree :=
  ⟨1 + countDoc d.root, [], rebuildNode d.root, 0, d.step⟩

/-! Concrete fixtures used by closed evaluation theorems and witnesses. -/

/-- A valid configuration: both vote thresholds at one half, capacity 3,
hybrids folded, singleton species creation on. -/
def cfgA : PTreeConfig := ⟨1/2, 1/2, 1/2, 3, true, true⟩

/-- A symmetric distance table on genome ids used by the fixtures. -/
def distTable (a b : Nat) : ℚ :=
  if (min a b, max a b) = (1, 2) then 0
  else if (min a b, max a b) = (1, 3) then 1/4
  else if (min a b, max a b) = (2, 3) then 3/4
  else 0

/-- Fixture genome capabilities: distance from the table, and the identity
distance-to-compatibility response on both sides. -/
def opsA : GenomeOps := ⟨fun a b => distTable a.gid b.gid, fun _ d => d⟩

/-- A parentless genome with the given id. -/
def gen (n : Nat) : Genome := ⟨n, none, none⟩

deriving instance DecidableEq for Except

/-!  Theorems settling the claims. -/

/-- C3: the membership test returns true iff the number of representatives
`r` whose combined score `min(g.compatibility(d), r.compatibility(d))`
reaches `compatibilityThreshold` is at least `similarityThreshold` times the
envelope size; in particular a node with an empty envelope always matches
(vacuous truth). -/
theorem C3_matchesSpecies_iff (cfg : PTreeConfig) (ops : GenomeOps)
    (g : Genome) (species : PNode) (acc : List ℚ) :
    ((matchesSpecies cfg ops g species acc).1 = true ↔
      cfg.similarityThreshold * (species.enveloppe.length : ℚ) ≤
        (((species.enveloppe.filter
            (fun r => decide (cfg.compatibilityThreshold ≤ gscore ops g r))).length : ℚ)))
    ∧ (species.enveloppe = [] → (matchesSpecies cfg ops g species acc).1 = true) := by
  obtain ⟨i, d, e, ds, cs⟩ := species
  constructor
  · simp only [matchesSpecies, PNode.enveloppe, decide_eq_true_iff]
    rw [List.filter_map, List.length_map]
    rfl
  · intro he
    simp only [PNode.enveloppe] at he
    subst he
    simp [matchesSpecies, PNode.enveloppe]

/-- C3 witness: a node with one close-enough representative matches, by the
left-to-right direction at a concrete input; the empty-envelope clause at a
concrete input gives the vacuous match. -/
theorem C3_matchesSpecies_iff_witness :
    (matchesSpecies cfgA opsA (gen 3) (.mk 1 ⟨0, 0, 1, 0, 0⟩ [gen 2] [] .nil) [1/4]).1
      = true ∧
    (matchesSpecies cfgA opsA (gen 3) (.mk 5 ⟨0, 0, 0, 0, 0⟩ [] [] .nil) []).1 = true := by
  constructor
  · exact (C3_matchesSpecies_iff cfgA opsA (gen 3)
      (.mk 1 ⟨0, 0, 1, 0, 0⟩ [gen 2] [] .nil) [1/4]).1.mpr (by with_unfolding_all decide)
  · exact (C3_matchesSpecies_iff cfgA opsA (gen 3)
      (.mk 5 ⟨0, 0, 0, 0, 0⟩ [] [] .nil) []).2 rfl

/-- C9: deserialisation never restores the genome-id index: on the tree
rebuilt by `from_json` every species lookup — including for the genome ids
inside the restored representative sets — returns the not-found value. -/
theorem C9_from_json_index_empty (d : TreeDoc) (gid : Nat) :
    speciesID (from_json d) gid = none := rfl

/-- C1: evaluation of the code at the failing input.  After admitting
genomes 1, 2, 3 (scores: `d(3,1) = 1/4` against the root's representative,
`d(3,2) = 3/4` against the representative of child species 1), genome 3 is
won by child 1, but the score vector passed to `insertInto` still holds the
root's score at index 0, so the cache entry `distances[(0,1)]` of species 1
is `1/4` — the score against the ROOT's representative — instead of the
score `3/4` against species 1's own representative, contradicting the
claim. -/
theorem C1_wrong_scores_cached :
    ((flatten (applyEvents cfgA opsA
        [.birth 0 (gen 1), .birth 0 (gen 2), .birth 0 (gen 3)] freshTree).root).find?
      (fun v => v.nid == 1)).map NodeView.ndists = some [((0, 1), 1/4)] ∧
    gscore opsA (gen 3) (gen 1) = 1/4 ∧
    gscore opsA (gen 3) (gen 2) = 3/4 ∧ ((1 : ℚ)/4 ≠ 3/4) := by
  with_unfolding_all decide

/-- C2 counterexample: on a fresh tree the single parentless genome is NOT
placed in a new child of the root — the root itself matches vacuously, the
genome is inserted there, no child is created and the returned species id
is the root's own id. -/
theorem C2_counterexample :
    addGenome cfgA opsA freshTree 5 (gen 1) =
      .ok (⟨1, [(1, 0)], .mk 0 ⟨0, 0, 1, 0, 5⟩ [gen 1] [] .nil, 0, 0⟩,
           freshTree.root.id, [.enters 0 1]) ∧
    freshTree.root.id = 0 := by
  with_unfolding_all decide

/-- C10: admitting a genome that records both parents is only defined when
both parent ids are in the genome-id index: any absent parent makes the
admission throw (`_idToSpecies.at`) before any mutation, leaving the tree
unchanged — it does not fall back to the root. -/
theorem C10_missing_parent_errors (cfg : PTreeConfig) (ops : GenomeOps)
    (t : PTree) (x : Int) (g : Genome) (mid fid : Nat)
    (hm : g.mother = some mid) (hf : g.father = some fid)
    (habs : alookup t.idToSpecies mid = none ∨ alookup t.idToSpecies fid = none) :
    addGenome cfg ops t x g = .error () ∧
    applyEvent cfg ops t (.birth x g) = t := by
  obtain ⟨gid, gm, gf⟩ := g
  simp only [Genome.mother] at hm
  simp only [Genome.father] at hf
  subst hm; subst hf
  have herr : addGenome cfg ops t x ⟨gid, some mid, some fid⟩ = .error () := by
    rcases habs with h | h
    · simp [addGenome, h]
    · simp only [addGenome, h]
      cases alookup t.idToSpecies mid <;> rfl
  refine ⟨herr, ?_⟩
  simp [applyEvent, herr]

/-- C10 witness: a genome with both parents recorded but absent from the
index of a fresh tree. -/
theorem C10_missing_parent_errors_witness :
    addGenome cfgA opsA freshTree 0 ⟨9, some 1, some 2⟩ = .error () ∧
    applyEvent cfgA opsA freshTree (.birth 0 ⟨9, some 1, some 2⟩) = freshTree :=
  C10_missing_parent_errors cfgA opsA freshTree 0 ⟨9, some 1, some 2⟩ 1 2
    rfl rfl (Or.inl rfl)

/-- A node with an empty envelope matches every genome: no representative
votes, and `0 >= similarityThreshold * 0`. -/
theorem matches_empty (cfg : PTreeConfig) (ops : GenomeOps) (g : Genome)
    (acc : List ℚ) (i : Nat) (d : NData) (ds : List ((Nat × Nat) × ℚ))
    (cs : PForest) :
    matchesSpecies cfg ops g (.mk i d [] ds cs) acc = (true, acc) := by
  simp [matchesSpecies, PNode.enveloppe]

/-- C2, amended: on a freshly constructed tree (valid configuration, so the
envelope capacity is positive), admitting one genome with no recorded
parents inserts it into the ROOT, which matches vacuously with its empty
envelope: no child is created, the root's envelope becomes `[g]` with
`count = 1`, the index maps the genome to the root, and the returned
species id is the root's own id.  (The root's `xmin`/`xmax` combine the
modelled initial value `0` with `x`; in the C++ source those two fields of
the root are never initialised.) -/
theorem C2_amended_root_absorbs (cfg : PTreeConfig) (ops : GenomeOps)
    (x : Int) (g : Genome) (hcap : 0 < cfg.enveloppeSize)
    (hm : g.mother = none) (hf : g.father = none) :
    addGenome cfg ops freshTree x g =
      .ok (⟨1, [(g.gid, 0)],
            .mk 0 ⟨0, 0, 1, min 0 x, max 0 x⟩ [g] [] .nil, 0, 0⟩,
           freshTree.root.id, [.enters 0 g.gid]) := by
  obtain ⟨gid, gm, gf⟩ := g
  simp only [Genome.mother] at hm
  simp only [Genome.father] at hf
  subst hm; subst hf
  simp [addGenome, startAt, freshTree, addAtNode, addGenomeAt, matches_empty,
        insertInto, bump, hcap, PNode.id, ainsert]

/-- C2 amended witness: a concrete parentless genome on the fresh tree. -/
theorem C2_amended_root_absorbs_witness :
    addGenome cfgA opsA freshTree 5 (gen 7) =
      .ok (⟨1, [(7, 0)], .mk 0 ⟨0, 0, 1, min 0 5, max 0 5⟩ [gen 7] [] .nil, 0, 0⟩,
           freshTree.root.id, [.enters 0 7]) :=
  C2_amended_root_absorbs cfgA opsA 5 (gen 7) (by decide) rfl rfl

/-! Lemmas about the distance table and the eviction scan. -/

theorem dget_cons (k : Nat × Nat) (w : ℚ) (t : List ((Nat × Nat) × ℚ))
    (key : Nat × Nat) :
    dget ((k, w) :: t) key = if k = key then w else dget t key := by
  simp only [dget, List.find?]
  rcases Decidable.em (k = key) with h | h
  · simp [h]
  · simp [h]

theorem pairLt_irrefl (k : Nat × Nat) : pairLt k k = false := by
  simp [pairLt]

theorem dget_dinsert_self (key : Nat × Nat) (v : ℚ) :
    ∀ l, dget (dinsert key v l) key = v := by
  intro l
  induction l with
  | nil => simp [dinsert, dget_cons]
  | cons hd t ih =>
    obtain ⟨k, w⟩ := hd
    simp only [dinsert]
    rcases Decidable.em (pairLt key k = true) with h1 | h1
    · simp [h1, dget_cons]
    · rcases Decidable.em (key = k) with h2 | h2
      · subst h2
        simp [h1, pairLt_irrefl, dget_cons]
      · have hne : ¬ k = key := fun hh => h2 hh.symm
        simp [h1, h2, dget_cons, hne, ih]

theorem dget_dinsert_other (key key' : Nat × Nat) (v : ℚ) (hne : key' ≠ key) :
    ∀ l, dget (dinsert key v l) key' = dget l key' := by
  intro l
  have hne' : ¬ key = key' := fun hh => hne hh.symm
  induction l with
  | nil => simp [dinsert, dget_cons, hne']
  | cons hd t ih =>
    obtain ⟨k, w⟩ := hd
    simp only [dinsert]
    rcases Decidable.em (pairLt key k = true) with h1 | h1
    · simp [h1, dget_cons, hne']
    · rcases Decidable.em (key = k) with h2 | h2
      · subst h2
        simp [h1, dget_cons, hne']
      · simp [h1, h2, dget_cons, ih]

theorem opair_inj (a b m : Nat) (_ha : a ≠ m) (_hb : b ≠ m)
    (h : opair a m = opair b m) : a = b := by
  simp only [opair, Prod.mk.injEq] at h
  obtain ⟨h1, h2⟩ := h
  rw [Nat.min_def, Nat.min_def] at h1
  rw [Nat.max_def, Nat.max_def] at h2
  split_ifs at h1 h2 <;> omega

/-- Invariant of the scan for the most compatible envelope point: after the
indices `1..j` have been examined, the seat holds the first index attaining
the maximum score among `0..j`. -/
theorem bestFold_inv (compat : List ℚ) (j : Nat) :
    ((List.range' 1 j).foldl (bestStep compat) (0, compat.getD 0 0)).1 < j + 1 ∧
    ((List.range' 1 j).foldl (bestStep compat) (0, compat.getD 0 0)).2 =
      compat.getD ((List.range' 1 j).foldl (bestStep compat) (0, compat.getD 0 0)).1 0 ∧
    (∀ t, t < j + 1 →
      compat.getD t 0 ≤ ((List.range' 1 j).foldl (bestStep compat) (0, compat.getD 0 0)).2) ∧
    (∀ t, t < ((List.range' 1 j).foldl (bestStep compat) (0, compat.getD 0 0)).1 →
      compat.getD t 0 < ((List.range' 1 j).foldl (bestStep compat) (0, compat.getD 0 0)).2) := by
  induction j with
  | zero =>
    simp only [List.range', List.foldl_nil]
    refine ⟨Nat.zero_lt_one, by trivial, fun t ht => ?_, fun t ht => absurd ht (Nat.not_lt_zero t)⟩
    have h0 : t = 0 := Nat.lt_one_iff.mp ht
    subst h0
    exact le_refl _
  | succ n ih =>
    obtain ⟨ih1, ih2, ih3, ih4⟩ := ih
    rw [List.range'_concat, List.foldl_append]
    set r := (List.range' 1 n).foldl (bestStep compat) (0, compat.getD 0 0) with hr
    simp only [List.foldl_cons, List.foldl_nil, bestStep]
    have hidx : 1 + 1 * n = n + 1 := by omega
    rw [hidx]
    rcases Decidable.em (r.2 < compat.getD (n + 1) 0) with hlt | hlt
    · simp only [hlt, if_pos]
      refine ⟨by omega, by trivial, ?_, ?_⟩
      · intro t ht
        rcases Decidable.em (t = n + 1) with he | he
        · subst he; exact le_refl _
        · exact le_of_lt (lt_of_le_of_lt (ih3 t (by omega)) hlt)
      · intro t ht
        exact lt_of_le_of_lt (ih3 t (by omega)) hlt
    · simp only [hlt, if_neg, not_false_iff]
      refine ⟨by omega, ih2, ?_, ih4⟩
      intro t ht
      rcases Decidable.em (t = n + 1) with he | he
      · subst he; exact le_of_not_lt hlt
      · exact ih3 t (by omega)

theorem mostCompatible_spec (compat : List ℚ) (k : Nat) (hk : 1 ≤ k) :
    mostCompatible compat k < k ∧
    (∀ i, i < k → compat.getD i 0 ≤ compat.getD (mostCompatible compat k) 0) ∧
    (∀ i, i < mostCompatible compat k →
      compat.getD i 0 < compat.getD (mostCompatible compat k) 0) := by
  obtain ⟨h1, h2, h3, h4⟩ := bestFold_inv compat (k - 1)
  have he : k - 1 + 1 = k := by omega
  rw [he] at h1 h3
  rw [h2] at h3 h4
  exact ⟨h1, h3, h4⟩

/-- After the eviction rewrite loop, every cache entry pairing a kept slot
`i` with the replaced slot `m` holds the fresh score `compatibilities[i]`. -/
theorem dget_overwrite (compat : List ℚ) (m : Nat) :
    ∀ k ds i, i < k → i ≠ m →
      dget ((List.range k).foldl
        (fun ds j => if j = m then ds else dinsert (opair j m) (compat.getD j 0) ds) ds)
        (opair i m) = compat.getD i 0 := by
  intro k
  induction k with
  | zero => intro ds i hi _; exact absurd hi (Nat.not_lt_zero i)
  | succ n ih =>
    intro ds i hi hne
    rw [List.range_succ, List.foldl_append]
    simp only [List.foldl_cons, List.foldl_nil]
    rcases Decidable.em (i = n) with he | he
    · subst he
      rw [if_neg hne]
      exact dget_dinsert_self (opair i m) (compat.getD i 0) _
    · have hi' : i < n := by omega
      rcases Decidable.em (n = m) with hm | hm
      · rw [if_pos hm]
        exact ih ds i hi' hne
      · rw [if_neg hm]
        rw [dget_dinsert_other (opair n m) (opair i m) (compat.getD n 0)
          (fun hh => he (opair_inj i n m hne hm hh))]
        exact ih ds i hi' hne

/-- C4: at full capacity, the eviction candidate `m` is the representative
with the highest score in the match's score vector (ties to the lowest
index); `m` is replaced iff at least
`outperformanceThreshold * (capacity - 1)` other representatives are
strictly less compatible with the incoming genome than with `m` (as cached
in `distances[(i, m)]`); on replacement the notifications fire in the order
left-then-entered and every `distances[(i, m)]` is overwritten with the
fresh score, otherwise envelope and distance cache are unchanged. -/
theorem C4_eviction (cfg : PTreeConfig) (step : Nat) (x : Int) (g : Genome)
    (species : PNode) (compat : List ℚ)
    (hk : species.enveloppe.length = cfg.enveloppeSize)
    (hpos : 1 ≤ cfg.enveloppeSize) :
    (mostCompatible compat cfg.enveloppeSize < cfg.enveloppeSize ∧
     (∀ i, i < cfg.enveloppeSize →
        compat.getD i 0 ≤ compat.getD (mostCompatible compat cfg.enveloppeSize) 0) ∧
     (∀ i, i < mostCompatible compat cfg.enveloppeSize →
        compat.getD i 0 < compat.getD (mostCompatible compat cfg.enveloppeSize) 0)) ∧
    (cfg.outperformanceThreshold * ((cfg.enveloppeSize - 1 : Nat) : ℚ) ≤
        (countVotes compat species.distances (mostCompatible compat cfg.enveloppeSize)
          cfg.enveloppeSize : ℚ) →
      (insertInto cfg step x g species compat).1.enveloppe =
          species.enveloppe.set (mostCompatible compat cfg.enveloppeSize) g ∧
      (insertInto cfg step x g species compat).2 =
          [.leaves species.id
             (species.enveloppe.getD (mostCompatible compat cfg.enveloppeSize) default).gid,
           .enters species.id g.gid] ∧
      (∀ i, i < cfg.enveloppeSize → i ≠ mostCompatible compat cfg.enveloppeSize →
        dget (insertInto cfg step x g species compat).1.distances
            (opair i (mostCompatible compat cfg.enveloppeSize)) = compat.getD i 0)) ∧
    ((countVotes compat species.distances (mostCompatible compat cfg.enveloppeSize)
          cfg.enveloppeSize : ℚ) <
        cfg.outperformanceThreshold * ((cfg.enveloppeSize - 1 : Nat) : ℚ) →
      (insertInto cfg step x g species compat).1.enveloppe = species.enveloppe ∧
      (insertInto cfg step x g species compat).1.distances = species.distances ∧
      (insertInto cfg step x g species compat).2 = []) := by
  obtain ⟨ni, d, env, dists, cs⟩ := species
  simp only [PNode.enveloppe, PNode.distances, PNode.id] at hk ⊢
  refine ⟨mostCompatible_spec compat cfg.enveloppeSize hpos, ?_, ?_⟩
  · intro hthr
    have hcond : ¬ ((countVotes compat dists (mostCompatible compat cfg.enveloppeSize)
        cfg.enveloppeSize : ℚ) <
        cfg.outperformanceThreshold * ((cfg.enveloppeSize - 1 : Nat) : ℚ)) :=
      not_lt.mpr hthr
    simp only [insertInto, hk, lt_irrefl, if_false, hcond, if_neg, not_false_iff,
      PNode.enveloppe, PNode.distances]
    refine ⟨by trivial, by trivial, ?_⟩
    intro i hi hne
    exact dget_overwrite compat (mostCompatible compat cfg.enveloppeSize)
      cfg.enveloppeSize dists i hi hne
  · intro hthr
    simp only [insertInto, hk, lt_irrefl, if_false, hthr, if_pos,
      PNode.enveloppe, PNode.distances]
    exact ⟨by trivial, by trivial, by trivial⟩

/-- A full envelope at capacity 2 with its cached pairwise score. -/
def fullNode : PNode := .mk 3 ⟨0, 0, 2, 0, 0⟩ [gen 1, gen 2] [((0, 1), 1/2)] .nil

/-- The fixture configuration with capacity 2. -/
def cfgB : PTreeConfig := ⟨1/2, 1/2, 1/2, 2, true, true⟩

/-- C4 witness: incoming scores `[3/4, 1/4]` make slot 0 the eviction
candidate; slot 1 votes for replacement (`1/4 < 1/2` cached), reaching the
threshold `1/2 * 1`, so slot 0 is replaced, notified left-then-entered,
and the cache entry `(0,1)` is overwritten with `1/4`. -/
theorem C4_eviction_witness :
    fullNode.enveloppe.length = cfgB.enveloppeSize ∧ 1 ≤ cfgB.enveloppeSize ∧
    (insertInto cfgB 9 4 (gen 5) fullNode [3/4, 1/4]).1.enveloppe =
      fullNode.enveloppe.set (mostCompatible [3/4, 1/4] cfgB.enveloppeSize) (gen 5) ∧
    (insertInto cfgB 9 4 (gen 5) fullNode [3/4, 1/4]).2 =
      [.leaves fullNode.id
         (fullNode.enveloppe.getD (mostCompatible [3/4, 1/4] cfgB.enveloppeSize) default).gid,
       .enters fullNode.id (gen 5).gid] ∧
    dget (insertInto cfgB 9 4 (gen 5) fullNode [3/4, 1/4]).1.distances
      (opair 1 (mostCompatible [3/4, 1/4] cfgB.enveloppeSize)) = [3/4, (1 : ℚ)/4].getD 1 0 := by
  have h := C4_eviction cfgB 9 4 (gen 5) fullNode [3/4, 1/4] rfl (by decide)
  have hrep := h.2.1 (by with_unfolding_all decide)
  exact ⟨rfl, by decide, hrep.1, hrep.2.1,
    hrep.2.2 1 (by decide) (by with_unfolding_all decide)⟩

/-! Lemmas about `touchNodes` and the flat view. -/

theorem touchNodes_id (sids : List Nat) (stp : Nat) (n : PNode) :
    (touchNodes sids stp n).id = n.id := by
  obtain ⟨i, d, e, ds, cs⟩ := n
  rfl

theorem touchForest_ids (sids : List Nat) (stp : Nat) :
    ∀ f, (touchForest sids stp f).ids = f.ids := by
  intro f
  induction f using PForest.indList with
  | hnil => rfl
  | hcons c t ih =>
    simp only [touchForest, PForest.ids, touchNodes_id, ih]

/-- The view of a touched node: `lastAppearance` becomes `stp` exactly on
the listed species, everything else is untouched. -/
def touchView (sids : List Nat) (stp : Nat) (v : NodeView) : NodeView :=
  ⟨v.nid, if v.nid ∈ sids then { v.ndata with lastAppearance := stp } else v.ndata,
   v.nenv, v.ndists, v.childIds⟩

theorem flatten_touch (sids : List Nat) (stp : Nat) :
    (∀ n, flatten (touchNodes sids stp n) = (flatten n).map (touchView sids stp)) ∧
    (∀ f, flattenF (touchForest sids stp f) = (flattenF f).map (touchView sids stp)) := by
  refine PNode.indMut
    (fun n => flatten (touchNodes sids stp n) = (flatten n).map (touchView sids stp))
    (fun f => flattenF (touchForest sids stp f) = (flattenF f).map (touchView sids stp))
    ?_ ?_ ?_
  · intro i d e ds cs ih
    simp only [touchNodes, flatten, List.map_cons, ih, touchForest_ids, touchView]
  · rfl
  · intro c t ihc iht
    simp only [touchForest, flattenF, List.map_append, ihc, iht]

/-- Successful resolution of every alive genome id, with a characterisation
of the resolved species set. -/
theorem lookupAll_some (alive : List Nat) (idx : List (Nat × Nat))
    (h : ∀ g ∈ alive, (alookup idx g).isSome) :
    ∃ S, lookupAll alive idx = some S ∧
      (∀ sid, sid ∈ S ↔ ∃ g ∈ alive, alookup idx g = some sid) := by
  induction alive with
  | nil =>
    refine ⟨[], rfl, fun sid => ?_⟩
    simp
  | cons p rest ih =>
    obtain ⟨S', hS', hmem⟩ := ih (fun g hg => h g (List.mem_cons_of_mem p hg))
    have hp := h p (List.mem_cons_self p rest)
    obtain ⟨sp, hsp⟩ := Option.isSome_iff_exists.mp hp
    refine ⟨sp :: S', ?_, fun sid => ?_⟩
    · simp only [lookupAll, hsp, hS']
    · simp only [List.mem_cons, hmem]
      constructor
      · rintro (he | ⟨g, hg, hgl⟩)
        · exact ⟨p, Or.inl rfl, by rw [he]; exact hsp⟩
        · exact ⟨g, Or.inr hg, hgl⟩
      · rintro ⟨g, hg, hgl⟩
        rcases hg with he | hg'
        · subst he
          rw [hsp] at hgl
          exact Or.inl (Option.some_injective _ hgl).symm
        · exact Or.inr ⟨g, hg', hgl⟩

/-- C7: when every alive genome id resolves, the step advance sets
`lastAppearance := s` on exactly the referenced species, sets the tree's
step to `s`, and leaves the index, hybrid counter, id counter, hierarchy
shape, envelopes and distance caches untouched. -/
theorem C7_stepTree (t : PTree) (s : Nat) (alive : List Nat)
    (h : ∀ g ∈ alive, (alookup t.idToSpecies g).isSome) :
    ∃ S, lookupAll alive t.idToSpecies = some S ∧
      (∀ sid, sid ∈ S ↔ ∃ g ∈ alive, alookup t.idToSpecies g = some sid) ∧
      stepTree t s alive =
        .ok ⟨t.nextNodeID, t.idToSpecies, touchNodes S s t.root, t.hybrids, s⟩ ∧
      flatten (touchNodes S s t.root) = (flatten t.root).map (touchView S s) := by
  obtain ⟨S, hS, hmem⟩ := lookupAll_some alive t.idToSpecies h
  refine ⟨S, hS, hmem, ?_, (flatten_touch S s).1 t.root⟩
  simp only [stepTree, hS]

/-- C8: a death event for a genome present in the index sets that species'
`lastAppearance` and changes nothing else — the index entry survives, so the
same lookup still succeeds afterwards; a death event for an unknown genome
id leaves the tree entirely unchanged. -/
theorem C8_delGenome (t : PTree) (s : Nat) (gid : Nat) :
    (alookup t.idToSpecies gid = none → delGenome t s gid = t) ∧
    (∀ sid, alookup t.idToSpecies gid = some sid →
      delGenome t s gid =
        ⟨t.nextNodeID, t.idToSpecies, touchNodes [sid] s t.root, t.hybrids, t.step⟩ ∧
      speciesID (delGenome t s gid) gid = some sid ∧
      flatten (touchNodes [sid] s t.root) =
        (flatten t.root).map (touchView [sid] s)) := by
  constructor
  · intro hnone
    simp only [delGenome, hnone]
  · intro sid hsid
    have hd : delGenome t s gid =
        ⟨t.nextNodeID, t.idToSpecies, touchNodes [sid] s t.root, t.hybrids, t.step⟩ := by
      simp only [delGenome, hsid]
    exact ⟨hd, by rw [hd]; exact hsid, (flatten_touch [sid] s).1 t.root⟩

/-- A small two-node tree used as a concrete state for witnesses: the root
and one child species (id 1), with genome 5 indexed to species 1. -/
def tW : PTree :=
  ⟨2, [(5, 1)], .mk 0 ⟨0, 0, 0, 0, 0⟩ [] []
    (.cons (.mk 1 ⟨0, 0, 1, 0, 0⟩ [gen 5] [] .nil) .nil), 0, 0⟩

/-- C7 witness: advancing to step 5 with genome 5 alive. -/
theorem C7_stepTree_witness :
    ∃ S, lookupAll [5] tW.idToSpecies = some S ∧
      (∀ sid, sid ∈ S ↔ ∃ g ∈ [5], alookup tW.idToSpecies g = some sid) ∧
      stepTree tW 5 [5] =
        .ok ⟨tW.nextNodeID, tW.idToSpecies, touchNodes S 5 tW.root, tW.hybrids, 5⟩ ∧
      flatten (touchNodes S 5 tW.root) = (flatten tW.root).map (touchView S 5) :=
  C7_stepTree tW 5 [5] (by decide)

/-- C8 witness: a death of the unknown genome 7 changes nothing; a death of
genome 5 at step 9 rewrites exactly species 1 and keeps the index entry. -/
theorem C8_delGenome_witness :
    delGenome tW 9 7 = tW ∧
    delGenome tW 9 5 =
      ⟨tW.nextNodeID, tW.idToSpecies, touchNodes [1] 9 tW.root, tW.hybrids, tW.step⟩ ∧
    speciesID (delGenome tW 9 5) 5 = some 1 :=
  ⟨(C8_delGenome tW 9 7).1 rfl,
   ((C8_delGenome tW 9 5).2 1 rfl).1,
   ((C8_delGenome tW 9 5).2 1 rfl).2.1⟩

/-! Serialisation roundtrip.  Every distance table a real tree can hold is
strictly sorted with normalised keys, because `std::map` keeps its keys in
strict `operator<` order and every key was built by the `ordered_pair`
constructor; `dwf` captures exactly this invariant of the modelled map. -/

theorem pairLt_asymm (p q : Nat × Nat) (h : pairLt p q = true) :
    pairLt q p = false := by
  simp only [pairLt, Bool.or_eq_true, Bool.and_eq_true, decide_eq_true_iff,
    Bool.or_eq_false_iff, Bool.and_eq_false_iff, decide_eq_false_iff_not] at h ⊢
  omega

theorem pairLt_ne (p q : Nat × Nat) (h : pairLt p q = true) : p ≠ q := by
  simp only [pairLt, Bool.or_eq_true, Bool.and_eq_true, decide_eq_true_iff] at h
  intro he
  subst he
  omega

theorem pairLt_trans (a b c : Nat × Nat) (h1 : pairLt a b = true)
    (h2 : pairLt b c = true) : pairLt a c = true := by
  simp only [pairLt, Bool.or_eq_true, Bool.and_eq_true, decide_eq_true_iff] at h1 h2 ⊢
  omega

/-- Distance tables as they occur in a reachable tree: keys normalised
(`fst ≤ snd`, what `ordered_pair` guarantees) and in strict ascending
`std::map` order. -/
def dwf : List ((Nat × Nat) × ℚ) → Bool
  | [] => true
  | [(k, _)] => decide (k.1 ≤ k.2)
  | (k, _) :: (k', v') :: t => decide (k.1 ≤ k.2) && pairLt k k' && dwf ((k', v') :: t)

theorem dwf_cons (k : Nat × Nat) (v : ℚ) (t : List ((Nat × Nat) × ℚ))
    (h : dwf ((k, v) :: t) = true) :
    k.1 ≤ k.2 ∧ dwf t = true ∧ ∀ q ∈ t, pairLt k q.1 = true := by
  induction t generalizing k v with
  | nil =>
    simp only [dwf, decide_eq_true_iff] at h
    exact ⟨h, rfl, fun q hq => absurd hq (List.not_mem_nil q)⟩
  | cons hd t' ih =>
    obtain ⟨k', v'⟩ := hd
    simp only [dwf, Bool.and_eq_true, decide_eq_true_iff] at h
    obtain ⟨⟨hk, hlt⟩, hrest⟩ := h
    obtain ⟨_, hwt', hall'⟩ := ih k' v' hrest
    refine ⟨hk, hrest, fun q hq => ?_⟩
    rcases List.mem_cons.mp hq with he | hq'
    · subst he; exact hlt
    · exact pairLt_trans k k' q.1 hlt (hall' q hq')

theorem dinsert_append (key : Nat × Nat) (v : ℚ) :
    ∀ l, (∀ p ∈ l, pairLt p.1 key = true) → dinsert key v l = l ++ [(key, v)] := by
  intro l
  induction l with
  | nil => intro _; rfl
  | cons hd t ih =>
    intro h
    obtain ⟨k, w⟩ := hd
    have hk := h (k, w) (List.mem_cons_self _ _)
    have h1 : pairLt key k = false := pairLt_asymm k key hk
    have h2 : key ≠ k := fun he => (pairLt_ne k key hk) he.symm
    simp only [dinsert, h1, Bool.false_eq_true, if_false, h2, if_neg, not_false_iff,
      List.cons_append, List.cons.injEq, true_and]
    exact ih (fun p hp => h p (List.mem_cons_of_mem _ hp))

theorem opair_norm (a b : Nat) (h : a ≤ b) : opair a b = (a, b) := by
  simp only [opair, Prod.mk.injEq]
  exact ⟨Nat.min_eq_left h, Nat.max_eq_right h⟩

/-- Re-inserting the serialised triples of a well-formed distance table into
an empty map reproduces the table exactly. -/
theorem dists_roundtrip (l : List ((Nat × Nat) × ℚ)) (hwf : dwf l = true) :
    (l.map (fun p => (p.1.1, p.1.2, p.2))).foldl
      (fun acc p => dinsert (opair p.1 p.2.1) p.2.2 acc) [] = l := by
  suffices hgen : ∀ l, dwf l = true → ∀ acc, (∀ p ∈ acc, ∀ q ∈ l, pairLt p.1 q.1 = true) →
      (l.map (fun p => (p.1.1, p.1.2, p.2))).foldl
        (fun acc p => dinsert (opair p.1 p.2.1) p.2.2 acc) acc = acc ++ l by
    have := hgen l hwf [] (fun p hp => absurd hp (List.not_mem_nil p))
    simpa using this
  intro l
  induction l with
  | nil =>
    intro _ acc _
    simp
  | cons hd t ih =>
    intro hwf acc hacc
    obtain ⟨k, v⟩ := hd
    obtain ⟨hk, hwt, hall⟩ := dwf_cons k v t hwf
    simp only [List.map_cons, List.foldl_cons]
    rw [opair_norm k.1 k.2 hk]
    have hins : dinsert (k.1, k.2) v acc = acc ++ [(k, v)] := by
      have := dinsert_append k v acc
        (fun p hp => hacc p hp (k, v) (List.mem_cons_self _ _))
      simpa using this
    rw [hins]
    have hacc' : ∀ p ∈ acc ++ [(k, v)], ∀ q ∈ t, pairLt p.1 q.1 = true := by
      intro p hp q hq
      rcases List.mem_append.mp hp with hp' | hp'
      · exact hacc p hp' q (List.mem_cons_of_mem _ hq)
      · have he : p = (k, v) := by simpa using hp'
        subst he
        exact hall q hq
    rw [ih hwt (acc ++ [(k, v)]) hacc']
    simp

/-- Well-formedness of every distance table in a hierarchy. -/
def dwfNode (n : PNode) : Bool := (flatten n).all (fun v => dwf v.ndists)

/-- Forest version of `dwfNode`. -/
def dwfForest (f : PForest) : Bool := (flattenF f).all (fun v => dwf v.ndists)

theorem node_roundtrip :
    (∀ n, dwfNode n = true → rebuildNode (serializeNode n) = n) ∧
    (∀ f, dwfForest f = true → rebuildForest (serializeForest f) = f) := by
  refine PNode.indMut
    (fun n => dwfNode n = true → rebuildNode (serializeNode n) = n)
    (fun f => dwfForest f = true → rebuildForest (serializeForest f) = f)
    ?_ ?_ ?_
  · intro i d e ds cs ih h
    simp only [dwfNode, flatten, List.all_cons, Bool.and_eq_true] at h
    obtain ⟨hds, hcs⟩ := h
    simp only [serializeNode, rebuildNode]
    rw [dists_roundtrip ds hds, ih hcs]
  · intro _
    rfl
  · intro c t ihc iht h
    simp only [dwfForest, flattenF, List.all_append, Bool.and_eq_true] at h
    obtain ⟨hc, ht⟩ := h
    simp only [serializeForest, rebuildForest]
    rw [ihc hc, iht ht]

/-- C6: serialising a tree and deserialising the document reproduces the
step counter and the entire node hierarchy — identical ids, metadata,
representative lists in order, and distance tables (equal as lists of
`(slotA, slotB, score)` entries, hence as sets).  The hypothesis `dwfNode`
is the `std::map` key invariant every representable tree satisfies. -/
theorem C6_roundtrip (t : PTree) (h : dwfNode t.root = true) :
    (from_json (to_json t)).step = t.step ∧
    (from_json (to_json t)).root = t.root :=
  ⟨rfl, node_roundtrip.1 t.root h⟩

/-- A concrete two-node tree with a non-empty distance table. -/
def tR : PTree :=
  ⟨3, [], .mk 0 ⟨0, 0, 2, 0, 4⟩ [gen 1, gen 2] [((0, 1), 1/2)]
    (.cons (.mk 1 ⟨1, 2, 1, -1, 0⟩ [gen 3] [] .nil) .nil), 0, 7⟩

/-- C6 witness: the concrete tree is well-formed and roundtrips. -/
theorem C6_roundtrip_witness :
    dwfNode tR.root = true ∧
    ((from_json (to_json tR)).step = tR.step ∧
     (from_json (to_json tR)).root = tR.root) :=
  ⟨by decide, C6_roundtrip tR (by decide)⟩

/-! The envelope-capacity invariant. -/

/-- Every node of the hierarchy holds at most `cap` representatives. -/
def envNode (cap : Nat) (n : PNode) : Bool :=
  (flatten n).all (fun v => decide (v.nenv.length ≤ cap))

/-- Forest version of `envNode`. -/
def envForest (cap : Nat) (f : PForest) : Bool :=
  (flattenF f).all (fun v => decide (v.nenv.length ≤ cap))

theorem envNode_mk (cap : Nat) (i : Nat) (d : NData) (e : List Genome)
    (ds : List ((Nat × Nat) × ℚ)) (cs : PForest) :
    envNode cap (.mk i d e ds cs) = (decide (e.length ≤ cap) && envForest cap cs) := by
  simp [envNode, envForest, flatten]

theorem envForest_cons (cap : Nat) (c : PNode) (t : PForest) :
    envForest cap (.cons c t) = (envNode cap c && envForest cap t) := by
  simp [envForest, envNode, flattenF]

theorem flattenF_append (f g : PForest) :
    flattenF (PForest.append f g) = flattenF f ++ flattenF g := by
  induction f using PForest.indList with
  | hnil => rfl
  | hcons c t ih => simp [PForest.append, flattenF, ih]

theorem envForest_append (cap : Nat) (f g : PForest) :
    envForest cap (PForest.append f g) = (envForest cap f && envForest cap g) := by
  simp [envForest, flattenF_append]

theorem insertInto_preserves (cfg : PTreeConfig) (s : Nat) (x : Int)
    (g : Genome) (compat : List ℚ) (n : PNode)
    (h : envNode cfg.enveloppeSize n = true) :
    envNode cfg.enveloppeSize (insertInto cfg s x g n compat).1 = true := by
  obtain ⟨i, d, e, ds, cs⟩ := n
  rw [envNode_mk, Bool.and_eq_true, decide_eq_true_iff] at h
  obtain ⟨he, hcs⟩ := h
  by_cases h1 : e.length < cfg.enveloppeSize
  · simp only [insertInto, h1, if_pos]
    rw [envNode_mk, Bool.and_eq_true, decide_eq_true_iff]
    refine ⟨?_, hcs⟩
    simp only [List.length_append, List.length_cons, List.length_nil]
    omega
  · simp only [insertInto, h1, if_false, if_neg, not_false_iff]
    split
    · rw [envNode_mk, Bool.and_eq_true, decide_eq_true_iff]
      exact ⟨he, hcs⟩
    · rw [envNode_mk, Bool.and_eq_true, decide_eq_true_iff]
      refine ⟨?_, hcs⟩
      rw [List.length_set]
      exact he

theorem visitChildren_preserves (cfg : PTreeConfig) (ops : GenomeOps)
    (s : Nat) (x : Int) (g : Genome) :
    ∀ f acc, envForest cfg.enveloppeSize f = true →
      envForest cfg.enveloppeSize (visitChildren cfg ops s x g f acc).1 = true := by
  intro f
  induction f using PForest.indList with
  | hnil => intro acc h; exact h
  | hcons c t ih =>
    intro acc h
    rw [envForest_cons, Bool.and_eq_true] at h
    obtain ⟨hc, ht⟩ := h
    simp only [visitChildren]
    split
    · rw [envForest_cons, Bool.and_eq_true]
      exact ⟨insertInto_preserves cfg s x g _ c hc, ht⟩
    · rw [envForest_cons, Bool.and_eq_true]
      exact ⟨hc, ih _ ht⟩

theorem addGenomeAt_preserves (cfg : PTreeConfig) (ops : GenomeOps)
    (s nid : Nat) (x : Int) (g : Genome) (n : PNode)
    (h : envNode cfg.enveloppeSize n = true) :
    ∀ n' w nid' ev, addGenomeAt cfg ops s nid x g n = .ok (n', w, nid', ev) →
      envNode cfg.enveloppeSize n' = true := by
  obtain ⟨i, d, e, ds, cs⟩ := n
  have hmk := h
  rw [envNode_mk, Bool.and_eq_true, decide_eq_true_iff] at hmk
  obtain ⟨he, hcs⟩ := hmk
  intro n' w nid' ev hok
  simp only [addGenomeAt] at hok
  rcases hv : visitChildren cfg ops s x g cs
      (matchesSpecies cfg ops g (PNode.mk i d e ds cs) []).2 with ⟨cs', ores, accF⟩
  rw [hv] at hok
  have hcs' : envForest cfg.enveloppeSize cs' = true := by
    have hp := visitChildren_preserves cfg ops s x g cs
      (matchesSpecies cfg ops g (PNode.mk i d e ds cs) []).2 hcs
    rw [hv] at hp
    exact hp
  split at hok
  · simp only [Except.ok.injEq, Prod.mk.injEq] at hok
    obtain ⟨h1, -⟩ := hok
    rw [← h1]
    exact insertInto_preserves cfg s x g _ _ h
  · rcases ores with - | ⟨w', ev'⟩
    · dsimp only at hok
      split at hok
      · simp only [Except.ok.injEq, Prod.mk.injEq] at hok
        obtain ⟨h1, -⟩ := hok
        rw [← h1, envNode_mk, Bool.and_eq_true, decide_eq_true_iff]
        refine ⟨he, ?_⟩
        rw [envForest_append, Bool.and_eq_true]
        refine ⟨hcs, ?_⟩
        rw [envForest_cons, Bool.and_eq_true]
        refine ⟨?_, by simp [envForest, flattenF]⟩
        refine insertInto_preserves cfg s x g accF _ ?_
        rw [envNode_mk]
        simp [envForest, flattenF]
      · exact Except.noConfusion hok
    · dsimp only at hok
      simp only [Except.ok.injEq, Prod.mk.injEq] at hok
      obtain ⟨h1, -⟩ := hok
      rw [← h1, envNode_mk, Bool.and_eq_true, decide_eq_true_iff]
      exact ⟨he, hcs'⟩

theorem addAt_preserves (cfg : PTreeConfig) (ops : GenomeOps) (s nid : Nat)
    (x : Int) (g : Genome) (sid : Nat) :
    (∀ n, ∀ n' w nid' ev,
      addAtNode cfg ops s nid x g sid n = some (.ok (n', w, nid', ev)) →
      envNode cfg.enveloppeSize n = true → envNode cfg.enveloppeSize n' = true) ∧
    (∀ f, ∀ f' w nid' ev,
      addAtForest cfg ops s nid x g sid f = some (.ok (f', w, nid', ev)) →
      envForest cfg.enveloppeSize f = true → envForest cfg.enveloppeSize f' = true) := by
  refine PNode.indMut
    (fun n => ∀ n' w nid' ev,
      addAtNode cfg ops s nid x g sid n = some (.ok (n', w, nid', ev)) →
      envNode cfg.enveloppeSize n = true → envNode cfg.enveloppeSize n' = true)
    (fun f => ∀ f' w nid' ev,
      addAtForest cfg ops s nid x g sid f = some (.ok (f', w, nid', ev)) →
      envForest cfg.enveloppeSize f = true → envForest cfg.enveloppeSize f' = true)
    ?_ ?_ ?_
  · intro i d e ds cs ihf n' w nid' ev hok h
    simp only [addAtNode] at hok
    split at hok
    · simp only [Option.some.injEq] at hok
      exact addGenomeAt_preserves cfg ops s nid x g (.mk i d e ds cs) h n' w nid' ev hok
    · rcases hf : addAtForest cfg ops s nid x g sid cs with - | res
      · rw [hf] at hok
        exact Option.noConfusion hok
      · rw [hf] at hok
        rcases res with u | ⟨cs', w2, nid2, ev2⟩
        · exact Except.noConfusion (Option.some_injective _ hok)
        · dsimp only at hok
          simp only [Option.some.injEq, Except.ok.injEq, Prod.mk.injEq] at hok
          obtain ⟨h1, -⟩ := hok
          rw [envNode_mk, Bool.and_eq_true, decide_eq_true_iff] at h
          obtain ⟨he, hcs⟩ := h
          rw [← h1, envNode_mk, Bool.and_eq_true, decide_eq_true_iff]
          exact ⟨he, ihf cs' w2 nid2 ev2 hf hcs⟩
  · intro f' w nid' ev hok
    exact Option.noConfusion hok
  · intro c t ihc ihf f' w nid' ev hok h
    rw [envForest_cons, Bool.and_eq_true] at h
    obtain ⟨hc, ht⟩ := h
    simp only [addAtForest] at hok
    rcases hn : addAtNode cfg ops s nid x g sid c with - | res
    · rw [hn] at hok
      dsimp only at hok
      rcases hf : addAtForest cfg ops s nid x g sid t with - | res2
      · rw [hf] at hok
        exact Option.noConfusion hok
      · rw [hf] at hok
        rcases res2 with u | ⟨t', w2, nid2, ev2⟩
        · exact Except.noConfusion (Option.some_injective _ hok)
        · dsimp only at hok
          simp only [Option.some.injEq, Except.ok.injEq, Prod.mk.injEq] at hok
          obtain ⟨h1, -⟩ := hok
          rw [← h1, envForest_cons, Bool.and_eq_true]
          exact ⟨hc, ihf t' w2 nid2 ev2 hf ht⟩
    · rw [hn] at hok
      rcases res with u | ⟨c', w2, nid2, ev2⟩
      · exact Except.noConfusion (Option.some_injective _ hok)
      · dsimp only at hok
        simp only [Option.some.injEq, Except.ok.injEq, Prod.mk.injEq] at hok
        obtain ⟨h1, -⟩ := hok
        rw [← h1, envForest_cons, Bool.and_eq_true]
        exact ⟨ihc c' w2 nid2 ev2 hn hc, ht⟩

theorem startAt_preserves (cfg : PTreeConfig) (ops : GenomeOps) (t : PTree)
    (x : Int) (g : Genome) (sid : Nat)
    (h : envNode cfg.enveloppeSize t.root = true) :
    ∀ t' w ev, startAt cfg ops t x g sid = .ok (t', w, ev) →
      envNode cfg.enveloppeSize t'.root = true := by
  intro t' w ev hok
  simp only [startAt] at hok
  rcases hn : addAtNode cfg ops t.step t.nextNodeID x g sid t.root with - | res
  · rw [hn] at hok
    exact Except.noConfusion hok
  · rw [hn] at hok
    rcases res with u | ⟨root', w2, nid2, ev2⟩
    · exact Except.noConfusion hok
    · dsimp only at hok
      simp only [Except.ok.injEq, Prod.mk.injEq] at hok
      obtain ⟨h1, -⟩ := hok
      rw [← h1]
      exact (addAt_preserves cfg ops t.step t.nextNodeID x g sid).1 t.root
        root' w2 nid2 ev2 hn h

theorem addGenome_preserves (cfg : PTreeConfig) (ops : GenomeOps) (t : PTree)
    (x : Int) (g : Genome) (h : envNode cfg.enveloppeSize t.root = true) :
    ∀ t' w ev, addGenome cfg ops t x g = .ok (t', w, ev) →
      envNode cfg.enveloppeSize t'.root = true := by
  intro t' w ev hok
  obtain ⟨gid, gm, gf⟩ := g
  simp only [addGenome, Genome.father, Genome.mother] at hok
  rcases gf with - | fid <;> rcases gm with - | mid <;> dsimp only at hok
  · exact startAt_preserves cfg ops t x _ t.root.id h t' w ev hok
  · exact startAt_preserves cfg ops t x _ t.root.id h t' w ev hok
  · exact startAt_preserves cfg ops t x _ t.root.id h t' w ev hok
  · rcases hm : alookup t.idToSpecies mid with - | mS <;>
      rcases hf : alookup t.idToSpecies fid with - | pS <;>
      rw [hm, hf] at hok <;> dsimp only at hok
    · exact Except.noConfusion hok
    · exact Except.noConfusion hok
    · exact Except.noConfusion hok
    · split at hok
      · exact startAt_preserves cfg ops t x _ mS h t' w ev hok
      · split at hok
        · exact startAt_preserves cfg ops
            ⟨t.nextNodeID, t.idToSpecies, t.root, t.hybrids + 1, t.step⟩ x _ mS h t' w ev hok
        · exact Except.noConfusion hok

theorem applyEvent_preserves (cfg : PTreeConfig) (ops : GenomeOps) (t : PTree)
    (ev : EventIn) (h : envNode cfg.enveloppeSize t.root = true) :
    envNode cfg.enveloppeSize (applyEvent cfg ops t ev).root = true := by
  have htouch : ∀ sids stp n, envNode cfg.enveloppeSize n = true →
      envNode cfg.enveloppeSize (touchNodes sids stp n) = true := by
    intro sids stp n hn
    rw [envNode, (flatten_touch sids stp).1 n, List.all_map]
    exact hn
  rcases ev with ⟨x, g⟩ | ⟨s, gid⟩ | ⟨s, alive⟩
  · simp only [applyEvent]
    rcases hb : addGenome cfg ops t x g with u | ⟨t', w, evl⟩
    · exact h
    · exact addGenome_preserves cfg ops t x g h t' w evl hb
  · simp only [applyEvent, delGenome]
    rcases alookup t.idToSpecies gid with - | sid
    · exact h
    · exact htouch [sid] s t.root h
  · simp only [applyEvent, stepTree]
    rcases lookupAll alive t.idToSpecies with - | sids
    · exact h
    · exact htouch sids s t.root h

/-- C5: for every configuration, genome capabilities and event sequence
(admissions, deaths, step advances) applied to a fresh tree, every node of
the resulting hierarchy holds at most `enveloppeSize` representatives:
insertion appends only below capacity and otherwise replaces in place. -/
theorem C5_envelope_bound (cfg : PTreeConfig) (ops : GenomeOps)
    (evs : List EventIn) :
    envNode cfg.enveloppeSize (applyEvents cfg ops evs freshTree).root = true := by
  suffices hstep : ∀ evs t, envNode cfg.enveloppeSize t.root = true →
      envNode cfg.enveloppeSize (applyEvents cfg ops evs t).root = true by
    refine hstep evs freshTree ?_
    simp [envNode, freshTree, flatten, flattenF]
  intro evs
  induction evs with
  | nil => intro t h; exact h
  | cons e rest ih =>
    intro t h
    exact ih (applyEvent cfg ops t e) (applyEvent_preserves cfg ops t e h)

end Phylo
